import Mathlib

/-!
# CAIF over HSI: descriptor format, buffer capacities and power flags

A shallow embedding of `include/net/caif/caif_hsi.h`: the protocol constants,
the byte layout of `struct cfhsi_desc` under `#pragma pack(1)`, the derived
buffer sizes, the piggy-back bit of the descriptor header and the bit numbers
of the power-management flags.

The header declares the data only. The routines that act on it (the bit
operations on the `bits` word, the packing and unpacking of a transfer) live
elsewhere; they are modelled here from the specification, and every such
definition says so in its comment.
-/

namespace CaifHsi

/-! ## Protocol constants -/

/-- Maximum number of CAIF frames that can reside in the same HSI frame. -/
def CFHSI_MAX_PKTS : Nat := 15

/-- Maximum number of bytes used for the frame that can be embedded in the
HSI descriptor. -/
def CFHSI_MAX_EMB_FRM_SZ : Nat := 96

/-! ## Layout of C structures -/

/-- Fixed-width integer types used by the members of `struct cfhsi_desc`. -/
inductive CType where
  | u8
  | u16
  deriving DecidableEq, Repr

/-- Size in bytes of a value of the type (`sizeof`). -/
def CType.sizeof : CType → Nat
  | .u8 => 1
  | .u16 => 2

/-- Width in bits of a value of the type. -/
def CType.bits (t : CType) : Nat := 8 * t.sizeof

/-- One member of a C structure: `ty name[count]` (`count = 1` for a scalar). -/
structure CMember where
  ty : CType
  count : Nat
  deriving DecidableEq, Repr

/-- Bytes occupied by the member. -/
def CMember.size (m : CMember) : Nat := m.ty.sizeof * m.count

/-- Alignment of the member under `#pragma pack(n)`: the natural alignment of
its element type, capped by `n`. -/
def CMember.align (pack : Nat) (m : CMember) : Nat := min m.ty.sizeof pack

/-- Round `x` up to the next multiple of `a`. -/
def align_up (x a : Nat) : Nat := (x + a - 1) / a * a

/-- Byte offsets of the members, in declaration order, when the first one is
placed at or after byte `pos`. -/
def member_offsets (pack : Nat) : List CMember → Nat → List Nat
  | [], _ => []
  | m :: ms, pos =>
    let o := align_up pos (m.align pack)
    o :: member_offsets pack ms (o + m.size)

/-- First byte after the last member. -/
def members_end (pack : Nat) : List CMember → Nat → Nat
  | [], pos => pos
  | m :: ms, pos => members_end pack ms (align_up pos (m.align pack) + m.size)

/-- Alignment of the structure: the largest member alignment. -/
def struct_align (pack : Nat) (ms : List CMember) : Nat :=
  (ms.map (CMember.align pack)).foldl max 1

/-- Size of the structure (`sizeof`): the end of the last member rounded up to
the structure's alignment. -/
def struct_sizeof (pack : Nat) (ms : List CMember) : Nat :=
  align_up (members_end pack ms 0) (struct_align pack ms)

/-! ## The HSI packet descriptor -/

/-- Packing in force for `struct cfhsi_desc`: `#pragma pack(1)`. -/
def cfhsi_desc_pack : Nat := 1

/-- Member `u8 header`. -/
def m_header : CMember := ⟨.u8, 1⟩

/-- Member `u8 offset`. -/
def m_offset : CMember := ⟨.u8, 1⟩

/-- Member `u16 cffrm_len[CFHSI_MAX_PKTS]`. -/
def m_cffrm_len : CMember := ⟨.u16, CFHSI_MAX_PKTS⟩

/-- Member `u8 emb_frm[CFHSI_MAX_EMB_FRM_SZ]`. -/
def m_emb_frm : CMember := ⟨.u8, CFHSI_MAX_EMB_FRM_SZ⟩

/-- Members of `struct cfhsi_desc`, in declaration order:
`u8 header; u8 offset; u16 cffrm_len[CFHSI_MAX_PKTS];
u8 emb_frm[CFHSI_MAX_EMB_FRM_SZ];`. -/
def cfhsi_desc_members : List CMember :=
  [m_header, m_offset, m_cffrm_len, m_emb_frm]

/-- Index of `header` in the member list. -/
def ix_header : Nat := 0
/-- Index of `offset` in the member list. -/
def ix_offset : Nat := 1
/-- Index of `cffrm_len` in the member list. -/
def ix_cffrm_len : Nat := 2
/-- Index of `emb_frm` in the member list. -/
def ix_emb_frm : Nat := 3

/-- Byte offset of the `i`-th member of `struct cfhsi_desc` (`offsetof`). -/
def cfhsi_desc_offsetof (i : Nat) : Nat :=
  (member_offsets cfhsi_desc_pack cfhsi_desc_members 0).getD i 0

/-- Bytes occupied by the `i`-th member of `struct cfhsi_desc`. -/
def cfhsi_desc_member_size (i : Nat) : Nat :=
  ((cfhsi_desc_members.map CMember.size).getD i 0)

/-- Size of the complete HSI packet descriptor. -/
def CFHSI_DESC_SZ : Nat := struct_sizeof cfhsi_desc_pack cfhsi_desc_members

/-- Size of the complete HSI packet descriptor excluding the optional embedded
CAIF frame. -/
def CFHSI_DESC_SHORT_SZ : Nat := CFHSI_DESC_SZ - CFHSI_MAX_EMB_FRM_SZ

/-- Maximum bytes transferred in one transfer. -/
def CFHSI_MAX_CAIF_FRAME_SZ : Nat := 4096

/-- Payload capacity of one transfer. -/
def CFHSI_MAX_PAYLOAD_SZ : Nat := CFHSI_MAX_PKTS * CFHSI_MAX_CAIF_FRAME_SZ

/-- Size of the complete HSI TX buffer. -/
def CFHSI_BUF_SZ_TX : Nat := CFHSI_DESC_SZ + CFHSI_MAX_PAYLOAD_SZ

/-- Size of the complete HSI RX buffer. -/
def CFHSI_BUF_SZ_RX : Nat := (2 * CFHSI_DESC_SZ) + CFHSI_MAX_PAYLOAD_SZ

/-- Bitmask for the HSI descriptor header: a piggy-backed descriptor follows. -/
def CFHSI_PIGGY_DESC : Nat := 0x01 <<< 7

/-- A value of `struct cfhsi_desc`. -/
structure cfhsi_desc where
  header : Nat
  offset : Nat
  cffrm_len : List Nat
  emb_frm : List Nat
  deriving DecidableEq, Repr

/-- The value inhabits the C type: `header` and `offset` are `u8`, `cffrm_len`
is an array of `CFHSI_MAX_PKTS` values of type `u16`, `emb_frm` an array of
`CFHSI_MAX_EMB_FRM_SZ` bytes. -/
def cfhsi_desc.wf (d : cfhsi_desc) : Prop :=
  d.header < 2 ^ m_header.ty.bits ∧ d.offset < 2 ^ m_offset.ty.bits ∧
  d.cffrm_len.length = m_cffrm_len.count ∧ (∀ l ∈ d.cffrm_len, l < 2 ^ m_cffrm_len.ty.bits) ∧
  d.emb_frm.length = m_emb_frm.count ∧ (∀ b ∈ d.emb_frm, b < 2 ^ m_emb_frm.ty.bits)

instance (d : cfhsi_desc) : Decidable d.wf := by
  unfold cfhsi_desc.wf; infer_instance

/-- Value kept by an unsigned field of type `t` when `v` is stored into it. -/
def CType.store (t : CType) (v : Nat) : Nat := v % 2 ^ t.bits

/-- The header byte `h` has the piggy-back bit set: `h & CFHSI_PIGGY_DESC`. -/
def piggy_set (h : Nat) : Bool := h &&& CFHSI_PIGGY_DESC != 0

/-! ## TX and RX states -/

/-- TX state: no transfer outstanding. -/
def CFHSI_TX_STATE_IDLE : Nat := 0
/-- TX state: a transfer is outstanding. -/
def CFHSI_TX_STATE_XFER : Nat := 1

/-- RX state: a descriptor is expected. -/
def CFHSI_RX_STATE_DESC : Nat := 0
/-- RX state: payload is expected. -/
def CFHSI_RX_STATE_PAYLOAD : Nat := 1

/-- Width in bits of the C type `int` of the members of `struct cfhsi_rx_state`. -/
def INT_BITS : Nat := 32

/-- Value kept by a signed `int` when the mathematical value `x` is stored into
it (two's complement wrap-around). -/
def to_int (x : Int) : Int :=
  (x + 2 ^ (INT_BITS - 1)) % 2 ^ INT_BITS - 2 ^ (INT_BITS - 1)

/-- Status of received CAIF frames processing (`struct cfhsi_rx_state`). -/
structure cfhsi_rx_state where
  state : Int
  nfrms : Int
  pld_len : Int
  retries : Int
  piggy_desc : Bool
  deriving DecidableEq, Repr

/-- Number of nonzero entries in the descriptor's frame-length array. -/
def cfhsi_desc.nonzero_lens (d : cfhsi_desc) : Nat :=
  d.cffrm_len.countP (fun l => l != 0)

/-- Sum of the entries of the descriptor's frame-length array. -/
def cfhsi_desc.total_len (d : cfhsi_desc) : Nat := d.cffrm_len.sum

/-! ## Power management flags -/

/-- Bit number of the wake-up request flag. -/
def CFHSI_WAKE_UP : Nat := 0
/-- Bit number of the wake-up acknowledge flag. -/
def CFHSI_WAKE_UP_ACK : Nat := 1
/-- Bit number of the wake-down acknowledge flag. -/
def CFHSI_WAKE_DOWN_ACK : Nat := 2
/-- Bit number of the awake flag. -/
def CFHSI_AWAKE : Nat := 3
/-- Bit number of the wakelock-held flag. -/
def CFHSI_WAKELOCK_HELD : Nat := 4
/-- Bit number of the shutdown flag. -/
def CFHSI_SHUTDOWN : Nat := 5
/-- Bit number of the flush-FIFO flag. -/
def CFHSI_FLUSH_FIFO : Nat := 6

/-- The seven power flags, in the order of their definition. -/
def power_flags : List Nat :=
  [CFHSI_WAKE_UP, CFHSI_WAKE_UP_ACK, CFHSI_WAKE_DOWN_ACK, CFHSI_AWAKE,
   CFHSI_WAKELOCK_HELD, CFHSI_SHUTDOWN, CFHSI_FLUSH_FIFO]

/-- Modelled from the spec: the operations on the link's `bits` word are not in
the header; a power flag is the bit of the `unsigned long` word at the flag's
bit number. Setting flag `nr` in a word of `w` bits: `bits |= 1UL << nr`. -/
def set_bit (w nr bits : Nat) : Nat := (bits ||| (1 <<< nr)) % 2 ^ w

/-- Modelled from the spec: clearing flag `nr` in a word of `w` bits,
`bits &= ~(1UL << nr)`. -/
def clear_bit (w nr bits : Nat) : Nat := bits &&& ((2 ^ w - 1) ^^^ ((1 <<< nr) % 2 ^ w))

/-- Modelled from the spec: value of flag `nr`, `(bits >> nr) & 1`. -/
def test_bit (nr bits : Nat) : Bool := (bits >>> nr) &&& 1 != 0

/-! ## Descriptor codec -/

/-- Frame: an opaque byte sequence with a known length. -/
abbrev Frame := List Nat

/-- Transfer buffer: the descriptor followed by the payload region. -/
structure xfer_buf where
  desc : cfhsi_desc
  payload : List Nat
  deriving DecidableEq, Repr

/-- Bytes of the transfer buffer in use. -/
def xfer_buf.size (b : xfer_buf) : Nat := CFHSI_DESC_SZ + b.payload.length

/-- Modelled from the spec: the packing routine is not in the header. The first
frame of the queue is embedded when it fits within `CFHSI_MAX_EMB_FRM_SZ` and
the embedding policy applies. -/
def embeds (policy : Bool) : List Frame → Bool
  | [] => false
  | f :: _ => policy && decide (f.length ≤ CFHSI_MAX_EMB_FRM_SZ)

/-- Modelled from the spec: the frame carried in the descriptor's embedded
field, if any. -/
def emb_part (policy : Bool) (q : List Frame) : Option Frame :=
  if embeds policy q then q.head? else none

/-- Modelled from the spec: the frames offered to the multiplexed region, the
queue without the embedded frame. -/
def mux_part (policy : Bool) (q : List Frame) : List Frame :=
  if embeds policy q then q.tail else q

/-- Modelled from the spec: frames are taken in FIFO order "up to `MAX_FRAMES`
frames or until the remaining transfer capacity cannot hold the next frame";
`slots` length entries and `cap` payload bytes remain. Returns the frames
taken and the frames left in the queue. -/
def mux_take : Nat → Nat → List Frame → List Frame × List Frame
  | 0, _, q => ([], q)
  | _ + 1, _, [] => ([], [])
  | slots + 1, cap, f :: q =>
    if f.length ≤ cap then
      let r := mux_take slots (cap - f.length) q
      (f :: r.1, r.2)
    else ([], f :: q)

/-- Modelled from the spec: content of the embedded field holding frame `f`;
the bytes after the frame are zero. -/
def emb_field (f : Frame) : List Nat :=
  f ++ List.replicate (CFHSI_MAX_EMB_FRM_SZ - f.length) 0

/-- Modelled from the spec: the length array recording the frames taken, in
order; unused entries are zero. -/
def len_field (taken : List Frame) : List Nat :=
  taken.map (fun f => m_cffrm_len.ty.store f.length) ++
    List.replicate (CFHSI_MAX_PKTS - taken.length) 0

/-- Result of packing: the transfer buffer, the number of bytes written and the
frames left in the queue. -/
structure pack_result where
  buf : xfer_buf
  written : Nat
  queue : List Frame
  deriving DecidableEq, Repr

/-- Modelled from the spec: `Pack` of section 4.1, which is not in the header.
`policy` tells whether the embedding policy applies, `piggy` whether another
descriptor is appended after the payload region. -/
def pack (policy piggy : Bool) (q : List Frame) : pack_result :=
  let r := mux_take CFHSI_MAX_PKTS (CFHSI_BUF_SZ_TX - CFHSI_DESC_SZ) (mux_part policy q)
  let d : cfhsi_desc :=
    { header := if piggy then CFHSI_PIGGY_DESC else 0
      offset := if embeds policy q then m_offset.ty.store CFHSI_DESC_SZ else 0
      cffrm_len := len_field r.1
      emb_frm := match emb_part policy q with
        | some f => emb_field f
        | none => List.replicate CFHSI_MAX_EMB_FRM_SZ 0 }
  let b : xfer_buf := { desc := d, payload := r.1.flatten }
  { buf := b, written := b.size, queue := r.2 }

/-- Failure of the codec. -/
inductive codec_error where
  | MalformedDescriptor
  deriving DecidableEq, Repr

/-- Modelled from the spec: the payload region sliced by the declared lengths,
in order; `none` when a declared length would read past the end. -/
def slice : List Nat → List Nat → Option (List Frame)
  | [], _ => some []
  | l :: ls, p =>
    if l ≤ p.length then (slice ls (p.drop l)).map (fun fs => p.take l :: fs)
    else none

/-- Result of unpacking: the embedded frame if any, the multiplexed frames in
order, and whether a piggy-back descriptor trails the payload. -/
structure unpacked where
  emb : Option Frame
  frames : List Frame
  piggy_desc : Bool
  deriving DecidableEq, Repr

/-- Modelled from the spec: `Unpack` of section 4.1, which is not in the header.
The length array is read until the first zero entry or the array end and the
payload region is sliced accordingly. An embedded frame is present when
`offset` is nonzero; the descriptor records no length for it, so what is
returned is the content of the embedded field. -/
def unpack (b : xfer_buf) : Except codec_error unpacked :=
  if CFHSI_MAX_PKTS < b.desc.nonzero_lens then .error .MalformedDescriptor
  else
    match slice (b.desc.cffrm_len.takeWhile (fun l => l != 0)) b.payload with
    | none => .error .MalformedDescriptor
    | some fs =>
      .ok { emb := if b.desc.offset != 0 then some b.desc.emb_frm else none
            frames := fs
            piggy_desc := piggy_set b.desc.header }

/-- The frames delivered by a transfer, in order: the embedded frame first. -/
def unpacked.all (u : unpacked) : List Frame := u.emb.toList ++ u.frames

/-- Modelled from the spec: the capacity constraints on a queue packed in one
transfer, at most `CFHSI_MAX_PKTS` multiplexed frames whose total is at most
the payload capacity. -/
def fits (policy : Bool) (q : List Frame) : Prop :=
  (mux_part policy q).length ≤ CFHSI_MAX_PKTS ∧
  ((mux_part policy q).map List.length).sum ≤ CFHSI_BUF_SZ_TX - CFHSI_DESC_SZ

instance (policy : Bool) (q : List Frame) : Decidable (fits policy q) := by
  unfold fits; infer_instance

/-! ## Basic facts -/

theorem sum_le_length_mul (b : Nat) :
    ∀ ls : List Nat, (∀ l ∈ ls, l ≤ b) → ls.sum ≤ ls.length * b
  | [], _ => by simp
  | l :: ls, h => by
    have h1 : l ≤ b := h l (List.mem_cons_self _ _)
    have h2 := sum_le_length_mul b ls (fun x hx => h x (List.mem_cons_of_mem _ hx))
    simp only [List.sum_cons, List.length_cons]
    rw [Nat.add_mul]
    omega

/-! ## Capacity of the transfer buffers -/

/-- C1: for every sequence of at most `CFHSI_MAX_PKTS` declared frame lengths,
each at most `CFHSI_MAX_CAIF_FRAME_SZ`, the sum of the lengths plus the
descriptor size is at most the TX buffer size. -/
theorem declared_lengths_fit_tx (lens : List Nat)
    (hn : lens.length ≤ CFHSI_MAX_PKTS)
    (hl : ∀ l ∈ lens, l ≤ CFHSI_MAX_CAIF_FRAME_SZ) :
    lens.sum + CFHSI_DESC_SZ ≤ CFHSI_BUF_SZ_TX := by
  have h := sum_le_length_mul CFHSI_MAX_CAIF_FRAME_SZ lens hl
  have h2 : lens.length * CFHSI_MAX_CAIF_FRAME_SZ ≤ CFHSI_MAX_PKTS * CFHSI_MAX_CAIF_FRAME_SZ :=
    Nat.mul_le_mul_right _ hn
  unfold CFHSI_BUF_SZ_TX CFHSI_MAX_PAYLOAD_SZ
  omega

theorem declared_lengths_fit_tx_witness :
    [4096, 17, 0, 96].sum + CFHSI_DESC_SZ ≤ CFHSI_BUF_SZ_TX :=
  declared_lengths_fit_tx [4096, 17, 0, 96] (by decide) (by decide)

/-- C4: the RX buffer size is `2 * CFHSI_DESC_SZ + CFHSI_MAX_PAYLOAD_SZ`, exactly
one descriptor more than the TX buffer size, so a descriptor, a payload of at
most `CFHSI_MAX_PAYLOAD_SZ` bytes and one trailing piggy-back descriptor fit
in the RX buffer. -/
theorem rx_buffer_holds_piggy_desc (pld : Nat) (h : pld ≤ CFHSI_MAX_PAYLOAD_SZ) :
    CFHSI_BUF_SZ_RX = 2 * CFHSI_DESC_SZ + CFHSI_MAX_PAYLOAD_SZ ∧
    CFHSI_BUF_SZ_RX = CFHSI_BUF_SZ_TX + CFHSI_DESC_SZ ∧
    CFHSI_DESC_SZ + pld + CFHSI_DESC_SZ ≤ CFHSI_BUF_SZ_RX := by
  unfold CFHSI_BUF_SZ_RX CFHSI_BUF_SZ_TX
  omega

theorem rx_buffer_holds_piggy_desc_witness :
    CFHSI_BUF_SZ_RX = 2 * CFHSI_DESC_SZ + CFHSI_MAX_PAYLOAD_SZ ∧
    CFHSI_BUF_SZ_RX = CFHSI_BUF_SZ_TX + CFHSI_DESC_SZ ∧
    CFHSI_DESC_SZ + 61440 + CFHSI_DESC_SZ ≤ CFHSI_BUF_SZ_RX :=
  rx_buffer_holds_piggy_desc 61440 (by decide)

/-! ## Wire-format constants and descriptor layout -/

/-- C5: the wire-format constants: at most 15 multiplexed frames, an embedded
frame of at most 96 bytes, a frame of at most 4096 bytes, and entries of the
length array that are 16 bits (2 bytes) wide. -/
theorem wire_format_constants :
    CFHSI_MAX_PKTS = 15 ∧ CFHSI_MAX_EMB_FRM_SZ = 96 ∧ CFHSI_MAX_CAIF_FRAME_SZ = 4096 ∧
    m_cffrm_len.ty.bits = 16 ∧ m_cffrm_len.ty.sizeof = 2 ∧
    m_cffrm_len.count = 15 ∧ m_emb_frm.count = 96 := by
  decide

/-- C8: the descriptor layout has no padding: `header` at byte 0, `offset` at
byte 1, the 15 two-byte lengths at bytes 2..31, the 96-byte embedded frame at
bytes 32..127; the descriptor is 1 + 1 + 2*15 + 96 = 128 bytes and the short
descriptor size, 32, is the offset of the embedded frame. -/
theorem desc_layout :
    cfhsi_desc_offsetof ix_header = 0 ∧ cfhsi_desc_member_size ix_header = 1 ∧
    cfhsi_desc_offsetof ix_offset = 1 ∧ cfhsi_desc_member_size ix_offset = 1 ∧
    cfhsi_desc_offsetof ix_cffrm_len = 2 ∧ cfhsi_desc_member_size ix_cffrm_len = 2 * 15 ∧
    cfhsi_desc_offsetof ix_cffrm_len + cfhsi_desc_member_size ix_cffrm_len - 1 = 31 ∧
    cfhsi_desc_offsetof ix_emb_frm = 32 ∧ cfhsi_desc_member_size ix_emb_frm = 96 ∧
    cfhsi_desc_offsetof ix_emb_frm + cfhsi_desc_member_size ix_emb_frm - 1 = 127 ∧
    CFHSI_DESC_SZ = (cfhsi_desc_members.map CMember.size).sum ∧
    CFHSI_DESC_SZ = 1 + 1 + 2 * 15 + 96 ∧ CFHSI_DESC_SZ = 128 ∧
    CFHSI_DESC_SHORT_SZ = 32 ∧ CFHSI_DESC_SHORT_SZ = cfhsi_desc_offsetof ix_emb_frm := by
  decide

/-- C6: the piggy-back flag is bit 7 of the header byte: the mask is
2^7 = 128, it fits the 8-bit header, and for a header byte `h` the test
`h & CFHSI_PIGGY_DESC` is nonzero exactly when bit 7 of `h` is set, that is
when `h ≥ 128`. -/
theorem piggy_desc_is_bit7 (h : Nat) (hh : h < 2 ^ m_header.ty.bits) :
    CFHSI_PIGGY_DESC = 2 ^ 7 ∧ CFHSI_PIGGY_DESC = 128 ∧
    CFHSI_PIGGY_DESC < 2 ^ m_header.ty.bits ∧
    (h &&& CFHSI_PIGGY_DESC ≠ 0 ↔ h.testBit 7 = true) ∧
    (h &&& CFHSI_PIGGY_DESC ≠ 0 ↔ 128 ≤ h) ∧
    (piggy_set h = true ↔ 128 ≤ h) := by
  have hh' : h < 256 := hh
  refine ⟨by decide, by decide, by decide, ?_, ?_, ?_⟩
  · clear hh
    interval_cases h <;> decide
  · clear hh
    interval_cases h <;> decide
  · clear hh
    interval_cases h <;> decide

theorem piggy_desc_is_bit7_witness :
    (0xC3 &&& CFHSI_PIGGY_DESC ≠ 0 ↔ 128 ≤ 0xC3) ∧ (piggy_set 0x7f = true ↔ 128 ≤ 0x7f) :=
  ⟨(piggy_desc_is_bit7 0xC3 (by decide)).2.2.2.2.1, (piggy_desc_is_bit7 0x7f (by decide)).2.2.2.2.2⟩

/-! ## Ranges of the descriptor fields -/

/-- C9: for every descriptor, the number of nonzero entries of its length array
is at most `CFHSI_MAX_PKTS`, because the array has exactly that many entries;
a count above `CFHSI_MAX_PKTS` cannot occur. -/
theorem nonzero_lens_le_max_pkts (d : cfhsi_desc) (hd : d.wf) :
    d.cffrm_len.length = CFHSI_MAX_PKTS ∧ d.nonzero_lens ≤ CFHSI_MAX_PKTS ∧
    ¬ (CFHSI_MAX_PKTS < d.nonzero_lens) := by
  have hlen : d.cffrm_len.length = CFHSI_MAX_PKTS := hd.2.2.1
  have hc : d.nonzero_lens ≤ d.cffrm_len.length := List.countP_le_length _
  refine ⟨hlen, ?_, ?_⟩ <;> omega

theorem nonzero_lens_le_max_pkts_witness :
    (⟨128, 0, List.replicate 15 65535, List.replicate 96 255⟩ : cfhsi_desc).nonzero_lens
      ≤ CFHSI_MAX_PKTS :=
  (nonzero_lens_le_max_pkts ⟨128, 0, List.replicate 15 65535, List.replicate 96 255⟩
    (by decide)).2.1

/-- C10: no protocol-legal value is truncated by its field: a frame length of
at most `CFHSI_MAX_CAIF_FRAME_SZ` is kept by the `u16` length field, the
offsets 0, `CFHSI_DESC_SHORT_SZ` and `CFHSI_DESC_SZ` are kept by the `u8` offset
field, and the sum of the 15 entries of the length array is at most
15 * 65535 < 2^31, so it is kept by the signed 32-bit `pld_len`. -/
theorem fields_hold_legal_values (len : Nat) (d : cfhsi_desc)
    (hlen : len ≤ CFHSI_MAX_CAIF_FRAME_SZ) (hd : d.wf) :
    m_cffrm_len.ty.store len = len ∧
    m_offset.ty.store 0 = 0 ∧
    m_offset.ty.store CFHSI_DESC_SHORT_SZ = CFHSI_DESC_SHORT_SZ ∧
    m_offset.ty.store CFHSI_DESC_SZ = CFHSI_DESC_SZ ∧
    d.total_len ≤ 15 * 65535 ∧ d.total_len < 2 ^ 31 ∧
    to_int (d.total_len : Int) = (d.total_len : Int) := by
  have h1 : len ≤ 4096 := hlen
  have hs : d.total_len ≤ 15 * 65535 := by
    have hb : ∀ l ∈ d.cffrm_len, l ≤ 65535 := fun l hl => by
      have : l < 2 ^ 16 := hd.2.2.2.1 l hl
      omega
    have h := sum_le_length_mul 65535 d.cffrm_len hb
    have hl : d.cffrm_len.length = 15 := hd.2.2.1
    rw [hl] at h
    exact h
  refine ⟨?_, by decide, by decide, by decide, hs, by omega, ?_⟩
  · show len % 2 ^ 16 = len
    omega
  · show ((d.total_len : Int) + 2 ^ 31) % 2 ^ 32 - 2 ^ 31 = (d.total_len : Int)
    omega

theorem fields_hold_legal_values_witness :
    m_cffrm_len.ty.store 4096 = 4096 ∧
    to_int (((⟨0, 0, List.replicate 15 65535, List.replicate 96 0⟩ : cfhsi_desc).total_len : Nat) : Int)
      = (((⟨0, 0, List.replicate 15 65535, List.replicate 96 0⟩ : cfhsi_desc).total_len : Nat) : Int) :=
  have h := fields_hold_legal_values 4096 ⟨0, 0, List.replicate 15 65535, List.replicate 96 0⟩
    (by decide) (by decide)
  ⟨h.1, h.2.2.2.2.2.2⟩

/-! ## Power flags -/

theorem test_bit_eq_testBit (nr bits : Nat) : test_bit nr bits = bits.testBit nr := by
  unfold test_bit Nat.testBit
  rw [Nat.land_comm]

theorem testBit_one_shiftLeft (i j : Nat) : (1 <<< i).testBit j = decide (i = j) := by
  rw [Nat.shiftLeft_eq, Nat.one_mul, Nat.testBit_two_pow]

theorem test_bit_set_bit (w i j bits : Nat) (hj : j < w) :
    test_bit j (set_bit w i bits) = (test_bit j bits || decide (i = j)) := by
  simp only [test_bit_eq_testBit, set_bit, Nat.testBit_mod_two_pow, Nat.testBit_or,
    testBit_one_shiftLeft, hj, decide_True, Bool.true_and]

theorem test_bit_clear_bit (w i j bits : Nat) (hj : j < w) :
    test_bit j (clear_bit w i bits) = (test_bit j bits && !decide (i = j)) := by
  simp only [test_bit_eq_testBit, clear_bit, Nat.testBit_and, Nat.testBit_xor,
    Nat.testBit_two_pow_sub_one, Nat.testBit_mod_two_pow, testBit_one_shiftLeft, hj,
    decide_True, Bool.true_and]
  cases bits.testBit j <;> cases decide (i = j) <;> rfl

theorem mem_power_flags_lt (i : Nat) (hi : i ∈ power_flags) : i < 7 := by
  simp only [power_flags, List.mem_cons, List.mem_singleton, List.not_mem_nil, or_false] at hi
  rcases hi with h | h | h | h | h | h | h <;> subst h <;> decide

/-- C7: the seven power flags are independent: their bit numbers are pairwise
distinct and are exactly 0..6, so in a `bits` word of at least seven bits
setting or clearing one flag leaves every other flag unchanged (and does set,
respectively clear, the flag itself). -/
theorem power_flags_independent (w bits i j : Nat) (hw : 7 ≤ w)
    (hi : i ∈ power_flags) (hj : j ∈ power_flags) (hij : i ≠ j) :
    power_flags = List.range 7 ∧ power_flags.Nodup ∧
    test_bit j (set_bit w i bits) = test_bit j bits ∧
    test_bit j (clear_bit w i bits) = test_bit j bits ∧
    test_bit i (set_bit w i bits) = true ∧
    test_bit i (clear_bit w i bits) = false := by
  have hi' : i < w := Nat.lt_of_lt_of_le (mem_power_flags_lt i hi) hw
  have hj' : j < w := Nat.lt_of_lt_of_le (mem_power_flags_lt j hj) hw
  refine ⟨by decide, by decide, ?_, ?_, ?_, ?_⟩
  · rw [test_bit_set_bit w i j bits hj']; simp [hij]
  · rw [test_bit_clear_bit w i j bits hj']; simp [hij]
  · rw [test_bit_set_bit w i i bits hi']; simp
  · rw [test_bit_clear_bit w i i bits hi']; simp

theorem power_flags_independent_witness :
    test_bit CFHSI_SHUTDOWN (set_bit 64 CFHSI_AWAKE 0x25) = test_bit CFHSI_SHUTDOWN 0x25 ∧
    test_bit CFHSI_SHUTDOWN (clear_bit 64 CFHSI_AWAKE 0x2d) = test_bit CFHSI_SHUTDOWN 0x2d :=
  have h := power_flags_independent 64 0x25 CFHSI_AWAKE CFHSI_SHUTDOWN (by decide) (by decide)
    (by decide) (by decide)
  have h2 := power_flags_independent 64 0x2d CFHSI_AWAKE CFHSI_SHUTDOWN (by decide) (by decide)
    (by decide) (by decide)
  ⟨h.2.2.1, h2.2.2.2.1⟩

/-! ## Packing -/

theorem mux_take_all : ∀ (n cap : Nat) (q : List Frame),
    q.length ≤ n → (q.map List.length).sum ≤ cap → mux_take n cap q = (q, [])
  | 0, _, q, hn, _ => by
    have : q = [] := List.length_eq_zero.mp (Nat.le_zero.mp hn)
    subst this
    simp [mux_take]
  | _ + 1, _, [], _, _ => by simp [mux_take]
  | n + 1, cap, f :: q, hn, hs => by
    simp only [List.map_cons, List.sum_cons, List.length_cons] at hn hs
    have h : f.length ≤ cap := by omega
    have ih := mux_take_all n (cap - f.length) q (by omega) (by omega)
    simp [mux_take, h, ih]

theorem mux_take_full : ∀ (cap : Nat) (q r : List Frame),
    (q.map List.length).sum ≤ cap → mux_take q.length cap (q ++ r) = (q, r)
  | _, [], r, _ => by simp [mux_take]
  | cap, f :: q, r, hs => by
    simp only [List.map_cons, List.sum_cons] at hs
    have h : f.length ≤ cap := by omega
    have ih := mux_take_full (cap - f.length) q r (by omega)
    simp [mux_take, h, ih]

theorem sum_map_length_const (c : Nat) : ∀ fs : List Frame,
    (∀ x ∈ fs, x.length = c) → (fs.map List.length).sum = fs.length * c
  | [], _ => by simp
  | f :: fs, h => by
    have h1 : f.length = c := h f (List.mem_cons_self _ _)
    have h2 := sum_map_length_const c fs (fun x hx => h x (List.mem_cons_of_mem _ hx))
    simp only [List.map_cons, List.sum_cons, List.length_cons, h1, h2]
    rw [Nat.add_mul]
    omega

theorem embeds_false_of_long (policy : Bool) (f : Frame) (q : List Frame)
    (h : CFHSI_MAX_EMB_FRM_SZ < f.length) : embeds policy (f :: q) = false := by
  simp [embeds, Nat.not_le.mpr h]

theorem payload_capacity_eq : CFHSI_BUF_SZ_TX - CFHSI_DESC_SZ = CFHSI_MAX_PAYLOAD_SZ := by
  decide

theorem mux_part_of_not_embeds (policy : Bool) (q : List Frame)
    (h : embeds policy q = false) : mux_part policy q = q := by
  simp [mux_part, h]

theorem emb_part_of_not_embeds (policy : Bool) (q : List Frame)
    (h : embeds policy q = false) : emb_part policy q = none := by
  simp [emb_part, h]

theorem pack_queue (policy piggy : Bool) (q : List Frame) :
    (pack policy piggy q).queue
      = (mux_take CFHSI_MAX_PKTS (CFHSI_BUF_SZ_TX - CFHSI_DESC_SZ) (mux_part policy q)).2 := rfl

theorem pack_payload (policy piggy : Bool) (q : List Frame) :
    (pack policy piggy q).buf.payload
      = (mux_take CFHSI_MAX_PKTS (CFHSI_BUF_SZ_TX - CFHSI_DESC_SZ) (mux_part policy q)).1.flatten :=
  rfl

theorem pack_written (policy piggy : Bool) (q : List Frame) :
    (pack policy piggy q).written = CFHSI_DESC_SZ + (pack policy piggy q).buf.payload.length :=
  rfl

theorem pack_desc (policy piggy : Bool) (q : List Frame) :
    (pack policy piggy q).buf.desc =
      { header := if piggy then CFHSI_PIGGY_DESC else 0
        offset := if embeds policy q then m_offset.ty.store CFHSI_DESC_SZ else 0
        cffrm_len := len_field
          (mux_take CFHSI_MAX_PKTS (CFHSI_BUF_SZ_TX - CFHSI_DESC_SZ) (mux_part policy q)).1
        emb_frm := match emb_part policy q with
          | some f => emb_field f
          | none => List.replicate CFHSI_MAX_EMB_FRM_SZ 0 } := rfl

theorem xfer_buf_ext (a b : xfer_buf) (hd : a.desc = b.desc) (hp : a.payload = b.payload) :
    a = b := by
  cases a; cases b
  simp only at hd hp
  rw [hd, hp]

/-- C2: fifteen frames of 4096 bytes fill the TX buffer exactly,
`CFHSI_DESC_SZ + 15 * 4096 = CFHSI_BUF_SZ_TX = 61568`: packing them writes that
many bytes and empties the queue, and one more frame of positive length does
not fit; packing leaves it in the queue, unchanged, and produces the same
transfer buffer. -/
theorem pack_max_frames_fills_tx (policy piggy : Bool) (fs : List Frame) (f : Frame)
    (hn : fs.length = CFHSI_MAX_PKTS)
    (hsz : ∀ x ∈ fs, x.length = CFHSI_MAX_CAIF_FRAME_SZ)
    (hf : 0 < f.length) :
    CFHSI_DESC_SZ + 15 * 4096 = CFHSI_BUF_SZ_TX ∧ CFHSI_BUF_SZ_TX = 61568 ∧
    (pack policy piggy fs).written = CFHSI_BUF_SZ_TX ∧
    (pack policy piggy fs).queue = [] ∧
    CFHSI_BUF_SZ_TX < (pack policy piggy fs).written + f.length ∧
    (pack policy piggy (fs ++ [f])).queue = [f] ∧
    (pack policy piggy (fs ++ [f])).buf = (pack policy piggy fs).buf ∧
    (pack policy piggy (fs ++ [f])).written = CFHSI_BUF_SZ_TX := by
  have hsum : (fs.map List.length).sum = CFHSI_MAX_PAYLOAD_SZ := by
    rw [sum_map_length_const CFHSI_MAX_CAIF_FRAME_SZ fs hsz, hn]
    rfl
  obtain ⟨g, gs, rfl⟩ : ∃ g gs, fs = g :: gs := by
    cases fs with
    | nil => exact absurd hn (by decide)
    | cons g gs => exact ⟨g, gs, rfl⟩
  have hg : CFHSI_MAX_EMB_FRM_SZ < g.length := by
    rw [hsz g (List.mem_cons_self _ _)]
    decide
  have he1 : embeds policy (g :: gs) = false := embeds_false_of_long policy g gs hg
  have he2 : embeds policy (g :: gs ++ [f]) = false := embeds_false_of_long policy g _ hg
  have hcap : (List.map List.length (g :: gs)).sum ≤ CFHSI_BUF_SZ_TX - CFHSI_DESC_SZ := by
    rw [payload_capacity_eq, hsum]
  have ht1 : mux_take CFHSI_MAX_PKTS (CFHSI_BUF_SZ_TX - CFHSI_DESC_SZ) (g :: gs) = (g :: gs, []) :=
    mux_take_all _ _ _ (Nat.le_of_eq hn) hcap
  have ht2 : mux_take CFHSI_MAX_PKTS (CFHSI_BUF_SZ_TX - CFHSI_DESC_SZ) (g :: gs ++ [f])
      = (g :: gs, [f]) := by
    rw [← hn]
    exact mux_take_full _ _ _ hcap
  have hp1 : (pack policy piggy (g :: gs)).buf.payload = (g :: gs).flatten := by
    rw [pack_payload, mux_part_of_not_embeds _ _ he1, ht1]
  have hp2 : (pack policy piggy (g :: gs ++ [f])).buf.payload = (g :: gs).flatten := by
    rw [pack_payload, mux_part_of_not_embeds _ _ he2, ht2]
  have hw : (pack policy piggy (g :: gs)).written = CFHSI_BUF_SZ_TX := by
    rw [pack_written, hp1, List.length_flatten, hsum]
    rfl
  have hb : (pack policy piggy (g :: gs ++ [f])).buf = (pack policy piggy (g :: gs)).buf := by
    apply xfer_buf_ext
    · rw [pack_desc, pack_desc, he1, he2, mux_part_of_not_embeds _ _ he1,
        mux_part_of_not_embeds _ _ he2, emb_part_of_not_embeds _ _ he1,
        emb_part_of_not_embeds _ _ he2, ht1, ht2]
    · rw [hp1, hp2]
  refine ⟨by decide, by decide, hw, ?_, ?_, ?_, hb, ?_⟩
  · rw [pack_queue, mux_part_of_not_embeds _ _ he1, ht1]
  · rw [hw]; omega
  · rw [pack_queue, mux_part_of_not_embeds _ _ he2, ht2]
  · rw [pack_written, hb, ← pack_written]
    exact hw

theorem pack_max_frames_fills_tx_witness :
    (pack false true (List.replicate 15 (List.replicate 4096 0xAA) ++ [[1]])).queue = [[1]] ∧
    (pack false true (List.replicate 15 (List.replicate 4096 0xAA))).written = CFHSI_BUF_SZ_TX :=
  have h := pack_max_frames_fills_tx false true (List.replicate 15 (List.replicate 4096 0xAA)) [1]
    (List.length_replicate 15 _)
    (fun x hx => (List.eq_of_mem_replicate hx).symm ▸ List.length_replicate 4096 _)
    (by decide)
  ⟨h.2.2.2.2.2.1, h.2.2.1⟩

/-! ## Unpacking what was packed -/

theorem slice_flatten : ∀ (fs : List Frame) (tl : List Nat),
    slice (fs.map List.length) (fs.flatten ++ tl) = some fs
  | [], _ => rfl
  | f :: fs, tl => by
    have h : f.length ≤ (f ++ (fs.flatten ++ tl)).length := by
      rw [List.length_append]; omega
    simp only [List.map_cons, List.flatten_cons, List.append_assoc, slice, h, if_true,
      List.drop_left, List.take_left, slice_flatten fs tl, Option.map_some']

theorem takeWhile_replicate_zero (k : Nat) :
    (List.replicate k 0).takeWhile (fun l => l != 0) = [] := by
  cases k with
  | zero => rfl
  | succ k => rfl

theorem takeWhile_lens (k : Nat) : ∀ ls : List Nat, (∀ l ∈ ls, l ≠ 0) →
    (ls ++ List.replicate k 0).takeWhile (fun l => l != 0) = ls
  | [], _ => takeWhile_replicate_zero k
  | l :: ls, h => by
    have h1 : (l != 0) = true := by
      simpa using h l (List.mem_cons_self _ _)
    have h2 := takeWhile_lens k ls (fun x hx => h x (List.mem_cons_of_mem _ hx))
    simp only [List.cons_append, List.takeWhile_cons, h1, if_true, h2]

theorem store_frame_len (n : Nat) (h : n ≤ CFHSI_MAX_CAIF_FRAME_SZ) :
    m_cffrm_len.ty.store n = n := by
  have h1 : n ≤ 4096 := h
  show n % 2 ^ 16 = n
  omega

theorem map_store_lens : ∀ fs : List Frame, (∀ f ∈ fs, f.length ≤ CFHSI_MAX_CAIF_FRAME_SZ) →
    fs.map (fun f => m_cffrm_len.ty.store f.length) = fs.map List.length
  | [], _ => rfl
  | f :: fs, h => by
    simp only [List.map_cons, store_frame_len _ (h f (List.mem_cons_self _ _)),
      map_store_lens fs (fun x hx => h x (List.mem_cons_of_mem _ hx))]

theorem len_field_length (fs : List Frame) (h : fs.length ≤ CFHSI_MAX_PKTS) :
    (len_field fs).length = CFHSI_MAX_PKTS := by
  simp only [len_field, List.length_append, List.length_map, List.length_replicate]
  omega

theorem len_field_takeWhile (fs : List Frame)
    (hsz : ∀ f ∈ fs, f.length ≤ CFHSI_MAX_CAIF_FRAME_SZ) (hne : ∀ f ∈ fs, 0 < f.length) :
    (len_field fs).takeWhile (fun l => l != 0) = fs.map List.length := by
  unfold len_field
  rw [map_store_lens fs hsz]
  apply takeWhile_lens
  intro l hl
  obtain ⟨f, hf, rfl⟩ := List.mem_map.mp hl
  exact Nat.pos_iff_ne_zero.mp (hne f hf)

theorem piggy_set_header (piggy : Bool) :
    piggy_set (if piggy then CFHSI_PIGGY_DESC else 0) = piggy := by
  cases piggy <;> decide

theorem take_emb_field (f : Frame) : (emb_field f).take f.length = f := by
  unfold emb_field
  exact List.take_left _ _

theorem emb_field_length (f : Frame) (h : f.length ≤ CFHSI_MAX_EMB_FRM_SZ) :
    (emb_field f).length = CFHSI_MAX_EMB_FRM_SZ := by
  simp only [emb_field, List.length_append, List.length_replicate]
  omega

theorem emb_field_eq_self_iff (f : Frame) (h : f.length ≤ CFHSI_MAX_EMB_FRM_SZ) :
    emb_field f = f ↔ f.length = CFHSI_MAX_EMB_FRM_SZ := by
  constructor
  · intro he
    have hl := emb_field_length f h
    rw [he] at hl
    exact hl
  · intro hl
    simp [emb_field, hl]

theorem length_le_of_emb_part (policy : Bool) (q : List Frame) (f : Frame)
    (h : emb_part policy q = some f) : f.length ≤ CFHSI_MAX_EMB_FRM_SZ := by
  cases q with
  | nil => simp [emb_part, embeds] at h
  | cons g q =>
    cases he : embeds policy (g :: q) with
    | false => simp [emb_part, he] at h
    | true =>
      simp only [emb_part, he, if_true, List.head?_cons, Option.some.injEq] at h
      subst h
      simp only [embeds, Bool.and_eq_true, decide_eq_true_eq] at he
      exact he.2

theorem emb_toList_append_mux (policy : Bool) (q : List Frame) :
    (emb_part policy q).toList ++ mux_part policy q = q := by
  unfold emb_part mux_part
  cases q with
  | nil => cases h : embeds policy [] <;> simp
  | cons f q => cases h : embeds policy (f :: q) <;> simp

theorem mem_of_mem_mux_part (policy : Bool) (q : List Frame) (f : Frame)
    (h : f ∈ mux_part policy q) : f ∈ q := by
  rw [← emb_toList_append_mux policy q]
  exact List.mem_append_right _ h

/-- Unpacking a buffer whose length array records nonempty frames of legal
size and whose payload starts with those frames returns them. -/
theorem unpack_packed_desc (hdr off : Nat) (emb : List Nat)
    (fs : List Frame) (tl : List Nat)
    (hn : fs.length ≤ CFHSI_MAX_PKTS)
    (hsz : ∀ f ∈ fs, f.length ≤ CFHSI_MAX_CAIF_FRAME_SZ) (hne : ∀ f ∈ fs, 0 < f.length) :
    unpack ⟨⟨hdr, off, len_field fs, emb⟩, fs.flatten ++ tl⟩ =
      .ok ⟨if off != 0 then some emb else none, fs, piggy_set hdr⟩ := by
  have hc : ¬ (CFHSI_MAX_PKTS < (⟨hdr, off, len_field fs, emb⟩ : cfhsi_desc).nonzero_lens) := by
    have h1 : (⟨hdr, off, len_field fs, emb⟩ : cfhsi_desc).nonzero_lens
        ≤ (len_field fs).length := List.countP_le_length _
    rw [len_field_length fs hn] at h1
    omega
  simp only [unpack, hc, if_false, len_field_takeWhile fs hsz hne, slice_flatten]

/-- The embedded part reported by unpacking a packed descriptor is the
embedded field of the frame that was embedded. -/
theorem emb_of_pack (policy : Bool) (q : List Frame) :
    (if (if embeds policy q then m_offset.ty.store CFHSI_DESC_SZ else 0) != 0 then
        some (match emb_part policy q with
          | some f => emb_field f
          | none => List.replicate CFHSI_MAX_EMB_FRM_SZ 0)
      else none) = (emb_part policy q).map emb_field := by
  cases he : embeds policy q with
  | false =>
    rw [emb_part_of_not_embeds policy q he]
    rfl
  | true =>
    cases q with
    | nil => simp [embeds] at he
    | cons f q =>
      have hp : emb_part policy (f :: q) = some f := by simp [emb_part, he]
      have ho : (m_offset.ty.store CFHSI_DESC_SZ != 0) = true := by decide
      simp only [hp, if_true, ho, Option.map_some']

/-- The frames delivered are the frames queued exactly when the embedded frame,
if there is one, fills the embedded field. -/
theorem all_eq_iff (policy piggy : Bool) (q : List Frame) :
    unpacked.all ⟨(emb_part policy q).map emb_field, mux_part policy q, piggy⟩ = q ↔
      ∀ f ∈ emb_part policy q, f.length = CFHSI_MAX_EMB_FRM_SZ := by
  cases hp : emb_part policy q with
  | none =>
    have h := emb_toList_append_mux policy q
    rw [hp] at h
    simp only [unpacked.all, Option.map_none', Option.mem_def, reduceCtorEq, false_implies,
      implies_true, iff_true]
    exact h
  | some g =>
    have h := emb_toList_append_mux policy q
    rw [hp] at h
    have hg := length_le_of_emb_part policy q g hp
    simp only [unpacked.all, Option.map_some', Option.toList_some, Option.mem_def,
      Option.some.injEq, forall_eq', List.singleton_append]
    simp only [Option.toList_some, List.singleton_append] at h
    rw [← emb_field_eq_self_iff g hg]
    constructor
    · intro h2
      rw [← h] at h2
      exact (List.cons.inj h2).1
    · intro h2
      rw [h2]
      exact h

end CaifHsi
